import Mathlib

/-!
Verification development for the message-moderation bot in src/app/src/main.rs.

Strings are modelled as lists of Unicode codepoints (Nat).  The external
Unicode library functions used by the source (str::to_lowercase from the
Rust standard library and nfc from the unicode_normalization crate) are
modelled faithfully on a documented fragment of Unicode: all of ASCII, the
full White_Space property, the combining grave and acute accents
(U+0300, U+0301) and the ten Latin-1 vowels precomposed with grave or
acute in both cases.  Codepoints outside the tables are inert (no case
mapping, no decomposition, combining class 0), matching the treatment the
real functions give to unmapped codepoints.
-/

set_option maxRecDepth 8000

namespace SetBot

/-- Unicode White_Space property, the predicate behind char::is_whitespace
used by str::split_whitespace in noramlize_string (main.rs line 87).
The list of codepoints is the complete White_Space set. -/
def isWs (c : Nat) : Bool :=
  (0x9 ≤ c && c ≤ 0xD) || c == 0x20 || c == 0x85 || c == 0xA0 || c == 0x1680 ||
  (0x2000 ≤ c && c ≤ 0x200A) || c == 0x2028 || c == 0x2029 || c == 0x202F ||
  c == 0x205F || c == 0x3000

/-- Simple lowercase mapping (str::to_lowercase, main.rs line 82), restricted
to the modelled fragment: ASCII letters and the Latin-1 vowels with grave or
acute accent.  Other codepoints are unchanged. -/
def lowerChar (c : Nat) : Nat :=
  if 0x41 ≤ c ∧ c ≤ 0x5A then c + 0x20
  else if c = 0xC0 ∨ c = 0xC1 ∨ c = 0xC8 ∨ c = 0xC9 ∨ c = 0xCC ∨ c = 0xCD ∨
          c = 0xD2 ∨ c = 0xD3 ∨ c = 0xD9 ∨ c = 0xDA then c + 0x20
  else c

/-- Lowercasing a whole string (msg.to_lowercase() on main.rs line 82). -/
def lowerStr (s : List Nat) : List Nat := s.map lowerChar

/-- Canonical combining class: the two modelled combining marks have class
230 as in the Unicode data; every other modelled codepoint is a starter. -/
def ccc (c : Nat) : Nat := if c = 0x300 ∨ c = 0x301 then 230 else 0

/-- Canonical decomposition over the modelled fragment, matching the Unicode
decomposition data for the Latin-1 vowels with grave or acute accent. -/
def decomp (c : Nat) : List Nat :=
  if c = 0xC0 then [0x41, 0x300] else
  if c = 0xC1 then [0x41, 0x301] else
  if c = 0xC8 then [0x45, 0x300] else
  if c = 0xC9 then [0x45, 0x301] else
  if c = 0xCC then [0x49, 0x300] else
  if c = 0xCD then [0x49, 0x301] else
  if c = 0xD2 then [0x4F, 0x300] else
  if c = 0xD3 then [0x4F, 0x301] else
  if c = 0xD9 then [0x55, 0x300] else
  if c = 0xDA then [0x55, 0x301] else
  if c = 0xE0 then [0x61, 0x300] else
  if c = 0xE1 then [0x61, 0x301] else
  if c = 0xE8 then [0x65, 0x300] else
  if c = 0xE9 then [0x65, 0x301] else
  if c = 0xEC then [0x69, 0x300] else
  if c = 0xED then [0x69, 0x301] else
  if c = 0xF2 then [0x6F, 0x300] else
  if c = 0xF3 then [0x6F, 0x301] else
  if c = 0xF9 then [0x75, 0x300] else
  if c = 0xFA then [0x75, 0x301] else [c]

/-- Full canonical decomposition of a string. -/
def decompAll (s : List Nat) : List Nat := s.flatMap decomp

/-- Primary composite for a starter and a combining mark, the inverse of
decomp on the modelled fragment. -/
def compPair (a b : Nat) : Option Nat :=
  if b = 0x300 then
    (if a = 0x41 then some 0xC0 else if a = 0x45 then some 0xC8 else
     if a = 0x49 then some 0xCC else if a = 0x4F then some 0xD2 else
     if a = 0x55 then some 0xD9 else if a = 0x61 then some 0xE0 else
     if a = 0x65 then some 0xE8 else if a = 0x69 then some 0xEC else
     if a = 0x6F then some 0xF2 else if a = 0x75 then some 0xF9 else none)
  else if b = 0x301 then
    (if a = 0x41 then some 0xC1 else if a = 0x45 then some 0xC9 else
     if a = 0x49 then some 0xCD else if a = 0x4F then some 0xD3 else
     if a = 0x55 then some 0xDA else if a = 0x61 then some 0xE1 else
     if a = 0x65 then some 0xE9 else if a = 0x69 then some 0xED else
     if a = 0x6F then some 0xF3 else if a = 0x75 then some 0xFA else none)
  else none

/-- Worker for one canonical ordering pass, carrying the pending head. -/
def opassAux (a : Nat) : List Nat → List Nat
  | [] => [a]
  | b :: rest =>
    if ccc b < ccc a ∧ 0 < ccc b then b :: opassAux a rest
    else a :: opassAux b rest

/-- One pass of the canonical ordering algorithm: adjacent combining marks
whose classes are out of order are swapped; starters are barriers. -/
def opass : List Nat → List Nat
  | [] => []
  | a :: rest => opassAux a rest

/-- Canonical ordering: iterate the swapping pass enough times to sort. -/
def canonicalOrdering (l : List Nat) : List Nat := opass^[l.length] l

/-- Worker for canonical composition, carrying the pending head. -/
def composeAux (a : Nat) : List Nat → List Nat
  | [] => [a]
  | b :: rest =>
    match compPair a b with
    | some p => composeAux p rest
    | none => a :: composeAux b rest

/-- Canonical composition: a combining mark merges with an immediately
preceding starter when the pair has a primary composite.  On the modelled
fragment (where all combining marks have the same class) this adjacent rule
coincides with the Unicode composition algorithm. -/
def compose : List Nat → List Nat
  | [] => []
  | a :: rest => composeAux a rest

/-- Unicode Normalization Form C (msg.nfc() on main.rs line 85): canonical
decomposition, canonical ordering, then canonical composition. -/
def nfc (s : List Nat) : List Nat := compose (canonicalOrdering (decompAll s))

/-- Accumulator-style worker for split_whitespace: acc holds the reversed
current token. -/
def swAux : List Nat → List Nat → List (List Nat)
  | [], acc => if acc.isEmpty then [] else [acc.reverse]
  | c :: rest, acc =>
    if isWs c then
      (if acc.isEmpty then swAux rest [] else acc.reverse :: swAux rest [])
    else swAux rest (c :: acc)

/-- str::split_whitespace (main.rs line 87): split on runs of Unicode
whitespace, discarding empty tokens. -/
def split_whitespace (l : List Nat) : List (List Nat) := swAux l []

/-- tokens.join(" ") (main.rs line 88). -/
def joinSp : List (List Nat) → List Nat
  | [] => []
  | [t] => t
  | t :: t2 :: ts => t ++ 0x20 :: joinSp (t2 :: ts)

/-- The normalizer from main.rs lines 81-89: lowercase, apply NFC, split on
whitespace runs and rejoin with single spaces.  The source function name is
kept, including its spelling. -/
def noramlize_string (msg : List Nat) : List Nat :=
  joinSp (split_whitespace (nfc (lowerStr msg)))

/-!  Character-level facts.  Every codepoint the tables mention is below
0x302, so each per-character fact splits into a finite check below that
bound and a uniform argument above it. -/

theorem charCase (P : Nat → Prop) (h1 : ∀ x : Fin 0x302, P x.val)
    (h2 : ∀ c, 0x302 ≤ c → P c) : ∀ c, P c :=
  fun c => if h : c < 0x302 then h1 ⟨c, h⟩ else h2 c (Nat.le_of_not_lt h)

theorem lowerChar_high (c : Nat) (h : 0x302 ≤ c) : lowerChar c = c := by
  unfold lowerChar
  rw [if_neg (by omega), if_neg (by omega)]

theorem decomp_high (c : Nat) (h : 0x302 ≤ c) : decomp c = [c] := by
  unfold decomp
  repeat rw [if_neg (by omega)]

theorem compPair_none_b (a b : Nat) (h1 : b ≠ 0x300) (h2 : b ≠ 0x301) :
    compPair a b = none := by
  unfold compPair
  rw [if_neg h1, if_neg h2]

theorem compPair_high_a (a b : Nat) (h : 0x302 ≤ a) : compPair a b = none := by
  by_cases hb3 : b = 0x300
  · subst hb3
    unfold compPair
    rw [if_pos rfl]
    repeat rw [if_neg (by omega)]
  · by_cases hb1 : b = 0x301
    · subst hb1
      unfold compPair
      rw [if_neg (by omega), if_pos rfl]
      repeat rw [if_neg (by omega)]
    · exact compPair_none_b a b hb3 hb1

theorem isWs_lowerChar : ∀ c, isWs (lowerChar c) = isWs c :=
  charCase _ (by decide) (fun c h => by rw [lowerChar_high c h])

theorem lowerChar_idem : ∀ c, lowerChar (lowerChar c) = lowerChar c :=
  charCase _ (by decide) (fun c h => by rw [lowerChar_high c h, lowerChar_high c h])

theorem lowerChar_ws_fix : ∀ c, isWs c = true → lowerChar c = c :=
  charCase _ (by decide) (fun c h _ => lowerChar_high c h)

theorem lowerChar_sp : lowerChar 0x20 = 0x20 := by decide

theorem decomp_lowerChar : ∀ c, decomp (lowerChar c) = (decomp c).map lowerChar :=
  charCase _ (by decide)
    (fun c h => by simp [lowerChar_high c h, decomp_high c h])

theorem ccc_cases (c : Nat) : ccc c = 0 ∨ ccc c = 230 := by
  unfold ccc
  split_ifs <;> simp

theorem decomp_ws : ∀ c, isWs c = true → decomp c = [c] :=
  charCase _ (by decide) (fun c h _ => decomp_high c h)

theorem decomp_ne_nil : ∀ c, decomp c ≠ [] :=
  charCase _ (by decide) (fun c h => by rw [decomp_high c h]; simp)

theorem decomp_nonws : ∀ c, isWs c = false →
    (decomp c).all (fun d => !isWs d) = true :=
  charCase _ (by decide) (fun c h hw => by rw [decomp_high c h]; simp [hw])

theorem lowerChar_mark_free (b : Nat) (h1 : b ≠ 0x300) (h2 : b ≠ 0x301) :
    lowerChar b ≠ 0x300 ∧ lowerChar b ≠ 0x301 := by
  unfold lowerChar
  split_ifs <;> omega

theorem compPair_lower : ∀ a b,
    compPair (lowerChar a) (lowerChar b) = (compPair a b).map lowerChar := by
  intro a b
  by_cases hb3 : b = 0x300
  · subst hb3
    have hfix : lowerChar 0x300 = 0x300 := by decide
    rw [hfix]
    revert a
    exact charCase _ (by decide)
      (fun a ha => by
        rw [lowerChar_high a ha, compPair_high_a a _ ha]; rfl)
  · by_cases hb1 : b = 0x301
    · subst hb1
      have hfix : lowerChar 0x301 = 0x301 := by decide
      rw [hfix]
      revert a
      exact charCase _ (by decide)
        (fun a ha => by
          rw [lowerChar_high a ha, compPair_high_a a _ ha]; rfl)
    · have hfree := lowerChar_mark_free b hb3 hb1
      rw [compPair_none_b _ _ hb3 hb1, compPair_none_b _ _ hfree.1 hfree.2]
      rfl

theorem compPair_props : ∀ a b p, compPair a b = some p →
    (decomp p = [a, b] ∧ decomp a = [a] ∧ decomp b = [b] ∧
     isWs p = false ∧ isWs a = false ∧ isWs b = false) := by
  have key : ∀ a b, compPair a b ≠ none →
      (decomp ((compPair a b).getD 0) = [a, b] ∧ decomp a = [a] ∧
       decomp b = [b] ∧ isWs ((compPair a b).getD 0) = false ∧
       isWs a = false ∧ isWs b = false) := by
    intro a b
    by_cases hb3 : b = 0x300
    · subst hb3
      revert a
      exact charCase _ (by decide)
        (fun a ha => by rw [compPair_high_a a _ ha]; intro h; exact absurd rfl h)
    · by_cases hb1 : b = 0x301
      · subst hb1
        revert a
        exact charCase _ (by decide)
          (fun a ha => by rw [compPair_high_a a _ ha]; intro h; exact absurd rfl h)
      · rw [compPair_none_b _ _ hb3 hb1]
        intro h
        exact absurd rfl h
  intro a b p hp
  have hne : compPair a b ≠ none := by rw [hp]; simp
  have := key a b hne
  rw [hp] at this
  simpa using this

theorem compPair_ws (a b : Nat) (h : isWs a = true ∨ isWs b = true) :
    compPair a b = none := by
  cases hc : compPair a b with
  | none => rfl
  | some p =>
    have hprops := compPair_props a b p hc
    rcases h with h | h
    · rw [hprops.2.2.2.2.1] at h; exact absurd h (by simp)
    · rw [hprops.2.2.2.2.2] at h; exact absurd h (by simp)

/-!  Canonical ordering is the identity on the modelled fragment: all
combining marks share class 230, so no adjacent pair is ever out of
order. -/

theorem opassAux_id : ∀ (l : List Nat) (a : Nat), opassAux a l = a :: l := by
  intro l
  induction l with
  | nil => intro a; rfl
  | cons b rest ih =>
    intro a
    simp only [opassAux]
    rw [if_neg]
    · rw [ih]
    · rcases ccc_cases a with h1 | h1 <;> rcases ccc_cases b with h2 | h2 <;> omega

theorem opass_id (l : List Nat) : opass l = l := by
  cases l with
  | nil => rfl
  | cons a rest => simp only [opass]; exact opassAux_id rest a

theorem canonicalOrdering_id (l : List Nat) : canonicalOrdering l = l :=
  Function.iterate_fixed (opass_id l) l.length

theorem nfc_eq (s : List Nat) : nfc s = compose (decompAll s) := by
  unfold nfc
  rw [canonicalOrdering_id]

/-!  Composition commutes with lowercasing, erases no codepoint kinds, and
is inverted by decomposition. -/

theorem composeAux_lower : ∀ (l : List Nat) (a : Nat),
    composeAux (lowerChar a) (l.map lowerChar) = (composeAux a l).map lowerChar := by
  intro l
  induction l with
  | nil => intro a; simp [composeAux]
  | cons b rest ih =>
    intro a
    simp only [List.map_cons, composeAux]
    rw [compPair_lower]
    cases h : compPair a b with
    | none => simp [ih]
    | some p => simp [ih]

theorem compose_lower (l : List Nat) :
    compose (lowerStr l) = lowerStr (compose l) := by
  cases l with
  | nil => rfl
  | cons a rest =>
    simp only [lowerStr, List.map_cons, compose]
    exact composeAux_lower rest a

theorem decompAll_nil : decompAll [] = [] := rfl

theorem decompAll_cons (c : Nat) (l : List Nat) :
    decompAll (c :: l) = decomp c ++ decompAll l := by
  simp [decompAll]

theorem decompAll_append (l1 l2 : List Nat) :
    decompAll (l1 ++ l2) = decompAll l1 ++ decompAll l2 := by
  simp [decompAll]

theorem decompAll_composeAux : ∀ (l : List Nat) (a : Nat),
    decompAll (composeAux a l) = decomp a ++ decompAll l := by
  intro l
  induction l with
  | nil => intro a; simp [composeAux, decompAll]
  | cons b rest ih =>
    intro a
    simp only [composeAux]
    cases h : compPair a b with
    | none => simp [decompAll_cons, ih b]
    | some p =>
      have hp := compPair_props a b p h
      simp [ih p, hp.1, hp.2.1, hp.2.2.1, decompAll_cons]

theorem decompAll_compose (l : List Nat) :
    decompAll (compose l) = decompAll l := by
  cases l with
  | nil => rfl
  | cons a rest =>
    simp only [compose]
    rw [decompAll_composeAux, decompAll_cons]

theorem decomp_decomp : ∀ c, (decomp c).all (fun d => decomp d == [d]) = true :=
  charCase _ (by decide) (fun c h => by rw [decomp_high c h]; simp [decomp_high c h])

theorem decompAll_fixed (l : List Nat) (h : ∀ x ∈ l, decomp x = [x]) :
    decompAll l = l := by
  induction l with
  | nil => rfl
  | cons d ds ih =>
    rw [decompAll_cons, h d (by simp), ih (fun x hx => h x (by simp [hx]))]
    rfl

theorem decompAll_idem (l : List Nat) : decompAll (decompAll l) = decompAll l := by
  induction l with
  | nil => rfl
  | cons c rest ih =>
    rw [decompAll_cons, decompAll_append, ih]
    have hc := decomp_decomp c
    simp only [List.all_eq_true, beq_iff_eq] at hc
    rw [decompAll_fixed (decomp c) hc]

theorem nfc_idem (l : List Nat) : nfc (nfc l) = nfc l := by
  rw [nfc_eq, nfc_eq, decompAll_compose, decompAll_idem]

theorem composeAux_ws_left (w : Nat) (hw : isWs w = true) :
    ∀ l, composeAux w l = w :: compose l := by
  intro l
  cases l with
  | nil => rfl
  | cons c rest =>
    simp only [composeAux, compose]
    rw [compPair_ws w c (Or.inl hw)]

theorem composeAux_split_ws : ∀ (t : List Nat) (a w : Nat) (l : List Nat),
    isWs w = true →
    composeAux a (t ++ w :: l) = composeAux a t ++ w :: compose l := by
  intro t
  induction t with
  | nil =>
    intro a w l hw
    simp only [List.nil_append, composeAux]
    rw [compPair_ws a w (Or.inr hw), composeAux_ws_left w hw]
    rfl
  | cons b t2 ih =>
    intro a w l hw
    simp only [List.cons_append, composeAux]
    cases h : compPair a b with
    | none => simp [ih b w l hw]
    | some p => simp [ih p w l hw]

theorem compose_split_ws (t : List Nat) (w : Nat) (l : List Nat) (hw : isWs w = true) :
    compose (t ++ w :: l) = compose t ++ w :: compose l := by
  cases t with
  | nil =>
    simp only [List.nil_append, compose]
    exact composeAux_ws_left w hw l
  | cons a t2 =>
    simp only [List.cons_append, compose]
    exact composeAux_split_ws t2 a w l hw

theorem composeAux_ne_nil : ∀ (l : List Nat) (a : Nat), composeAux a l ≠ [] := by
  intro l
  induction l with
  | nil => intro a; simp [composeAux]
  | cons b rest ih =>
    intro a
    simp only [composeAux]
    cases h : compPair a b with
    | none => simp
    | some p => exact ih p

theorem compose_ne_nil (l : List Nat) (h : l ≠ []) : compose l ≠ [] := by
  cases l with
  | nil => exact absurd rfl h
  | cons a rest => exact composeAux_ne_nil rest a

theorem composeAux_nonws : ∀ (l : List Nat) (a : Nat), isWs a = false →
    (∀ c ∈ l, isWs c = false) → ∀ c ∈ composeAux a l, isWs c = false := by
  intro l
  induction l with
  | nil =>
    intro a ha _ c hc
    simp [composeAux] at hc
    subst hc
    exact ha
  | cons b rest ih =>
    intro a ha hl c hc
    simp only [composeAux] at hc
    cases h : compPair a b with
    | none =>
      rw [h] at hc
      simp only [List.mem_cons] at hc
      rcases hc with hc | hc
      · subst hc; exact ha
      · exact ih b (hl b (by simp)) (fun d hd => hl d (by simp [hd])) c hc
    | some p =>
      rw [h] at hc
      have hp := compPair_props a b p h
      exact ih p hp.2.2.2.1 (fun d hd => hl d (by simp [hd])) c hc

theorem compose_nonws (l : List Nat) (hl : ∀ c ∈ l, isWs c = false) :
    ∀ c ∈ compose l, isWs c = false := by
  cases l with
  | nil => intro c hc; simp [compose] at hc
  | cons a rest =>
    exact composeAux_nonws rest a (hl a (by simp)) (fun d hd => hl d (by simp [hd]))

/-!  Facts about split_whitespace: its tokens are nonempty and free of
whitespace, it is insensitive to leading whitespace, and it interacts with
token-preserving string transformations in the expected way. -/

theorem swAux_ws_skip (w : Nat) (l : List Nat) (hw : isWs w = true) :
    swAux (w :: l) [] = swAux l [] := by
  simp [swAux, hw]

theorem swAux_ws_cut (w : Nat) (l acc : List Nat) (hw : isWs w = true)
    (hacc : acc ≠ []) : swAux (w :: l) acc = acc.reverse :: swAux l [] := by
  simp [swAux, hw, List.isEmpty_iff, hacc]

theorem swAux_nonws (c : Nat) (l acc : List Nat) (hc : isWs c = false) :
    swAux (c :: l) acc = swAux l (c :: acc) := by
  simp [swAux, hc]

theorem swAux_all_nonws : ∀ (l acc : List Nat), (∀ c ∈ l, isWs c = false) →
    (acc ≠ [] ∨ l ≠ []) → swAux l acc = [acc.reverse ++ l] := by
  intro l
  induction l with
  | nil =>
    intro acc _ hne
    rcases hne with hne | hne
    · simp [swAux, List.isEmpty_iff, hne]
    · exact absurd rfl hne
  | cons c rest ih =>
    intro acc hl _
    rw [swAux_nonws c rest acc (hl c (by simp))]
    rw [ih (c :: acc) (fun d hd => hl d (by simp [hd])) (Or.inl (by simp))]
    simp

theorem splitWs_all_nonws (t : List Nat) (h1 : t ≠ [])
    (h2 : ∀ c ∈ t, isWs c = false) : split_whitespace t = [t] := by
  unfold split_whitespace
  rw [swAux_all_nonws t [] h2 (Or.inr h1)]
  simp

theorem swAux_token_cut : ∀ (t : List Nat) (acc : List Nat) (w : Nat) (x : List Nat),
    (∀ c ∈ t, isWs c = false) → isWs w = true → (acc ≠ [] ∨ t ≠ []) →
    swAux (t ++ w :: x) acc = (acc.reverse ++ t) :: swAux x [] := by
  intro t
  induction t with
  | nil =>
    intro acc w x _ hw hne
    rcases hne with hne | hne
    · rw [List.nil_append, swAux_ws_cut w x acc hw hne]
      simp
    · exact absurd rfl hne
  | cons c t2 ih =>
    intro acc w x ht hw _
    rw [List.cons_append, swAux_nonws c (t2 ++ w :: x) acc (ht c (by simp))]
    rw [ih (c :: acc) w x (fun d hd => ht d (by simp [hd])) hw (Or.inl (by simp))]
    simp

theorem splitWs_token_cut (t : List Nat) (w : Nat) (x : List Nat)
    (h1 : t ≠ []) (h2 : ∀ c ∈ t, isWs c = false) (hw : isWs w = true) :
    split_whitespace (t ++ w :: x) = t :: split_whitespace x := by
  unfold split_whitespace
  rw [swAux_token_cut t [] w x h2 hw (Or.inr h1)]
  simp

theorem swAux_tokens_good : ∀ (l acc : List Nat), (∀ c ∈ acc, isWs c = false) →
    ∀ t ∈ swAux l acc, t ≠ [] ∧ ∀ c ∈ t, isWs c = false := by
  intro l
  induction l with
  | nil =>
    intro acc hacc t ht
    cases hempty : acc.isEmpty with
    | true => rw [swAux, if_pos hempty] at ht; simp at ht
    | false =>
      rw [swAux, if_neg (by simp [hempty])] at ht
      simp only [List.mem_singleton] at ht
      subst ht
      constructor
      · simp [List.isEmpty_iff] at hempty
        simpa using hempty
      · intro c hc
        exact hacc c (by simpa using hc)
  | cons c rest ih =>
    intro acc hacc t ht
    by_cases hc : isWs c = true
    · cases hempty : acc.isEmpty with
      | true =>
        have hacc2 : acc = [] := by simpa [List.isEmpty_iff] using hempty
        subst hacc2
        rw [swAux_ws_skip c rest hc] at ht
        exact ih [] (by simp) t ht
      | false =>
        have hacc2 : acc ≠ [] := by simp [List.isEmpty_iff] at hempty; exact hempty
        rw [swAux_ws_cut c rest acc hc hacc2] at ht
        rcases List.mem_cons.mp ht with ht | ht
        · subst ht
          refine ⟨by simpa using hacc2, ?_⟩
          intro d hd
          exact hacc d (by simpa using hd)
        · exact ih [] (by simp) t ht
    · have hc2 : isWs c = false := by simpa using hc
      rw [swAux_nonws c rest acc hc2] at ht
      refine ih (c :: acc) ?_ t ht
      intro d hd
      rcases List.mem_cons.mp hd with hd | hd
      · subst hd; exact hc2
      · exact hacc d hd

theorem splitWs_tokens_good (l : List Nat) :
    ∀ t ∈ split_whitespace l, t ≠ [] ∧ ∀ c ∈ t, isWs c = false :=
  swAux_tokens_good l [] (by simp)

theorem dropWhile_head_ws : ∀ (l : List Nat) (w : Nat) (x : List Nat),
    l.dropWhile (fun d => !isWs d) = w :: x → isWs w = true := by
  intro l
  induction l with
  | nil => intro w x h; simp [List.dropWhile] at h
  | cons c rest ih =>
    intro w x h
    by_cases hc : isWs c = true
    · rw [List.dropWhile_cons, if_neg (by simp [hc])] at h
      cases h
      exact hc
    · rw [List.dropWhile_cons, if_pos (by simpa using hc)] at h
      exact ih w x h

/-- Main commutation lemma: a string transformation that fixes whitespace
boundaries and keeps tokens whitespace-free commutes with splitting on
whitespace. -/
theorem splitWs_comm (F : List Nat → List Nat) (hF1 : F [] = [])
    (hF3 : ∀ (t : List Nat) (w : Nat) (l : List Nat), isWs w = true →
      (∀ c ∈ t, isWs c = false) → F (t ++ w :: l) = F t ++ w :: F l)
    (hF4 : ∀ t, t ≠ [] → (∀ c ∈ t, isWs c = false) →
      F t ≠ [] ∧ ∀ c ∈ F t, isWs c = false) :
    ∀ l, split_whitespace (F l) = (split_whitespace l).map F := by
  have H : ∀ (n : Nat) (l : List Nat), l.length ≤ n →
      split_whitespace (F l) = (split_whitespace l).map F := by
    intro n
    induction n with
    | zero =>
      intro l hl
      have hnil : l = [] := List.eq_nil_of_length_eq_zero (Nat.le_zero.mp hl)
      subst hnil
      rw [hF1]
      rfl
    | succ n ih =>
      intro l hl
      cases l with
      | nil => rw [hF1]; rfl
      | cons c rest =>
        by_cases hc : isWs c = true
        · have hstep : F (c :: rest) = c :: F rest := by
            have := hF3 [] c rest hc (by simp)
            rw [hF1] at this
            simpa using this
          rw [hstep]
          unfold split_whitespace
          rw [swAux_ws_skip c (F rest) hc, swAux_ws_skip c rest hc]
          exact ih rest (by simpa using Nat.le_of_succ_le_succ hl)
        · have hc2 : isWs c = false := by simpa using hc
          set tok := (c :: rest).takeWhile (fun d => !isWs d) with htok
          set rem := (c :: rest).dropWhile (fun d => !isWs d) with hrem
          have hsplit : tok ++ rem = c :: rest := by
            rw [htok, hrem]
            exact List.takeWhile_append_dropWhile _ _
          have htoknn : tok ≠ [] := by
            rw [htok, List.takeWhile_cons, if_pos (by simp [hc2])]
            simp
          have htokws : ∀ d ∈ tok, isWs d = false := by
            intro d hd
            have := List.mem_takeWhile_imp hd
            simpa using this
          cases hremc : rem with
          | nil =>
            rw [hremc] at hsplit
            rw [List.append_nil] at hsplit
            rw [← hsplit]
            rw [splitWs_all_nonws tok htoknn htokws]
            have hFgood := hF4 tok htoknn htokws
            rw [splitWs_all_nonws (F tok) hFgood.1 hFgood.2]
            rfl
          | cons w x =>
            have hdw : (c :: rest).dropWhile (fun d => !isWs d) = w :: x := by
              rw [← hrem]
              exact hremc
            have hw : isWs w = true := dropWhile_head_ws (c :: rest) w x hdw
            rw [hremc] at hsplit
            rw [← hsplit]
            rw [hF3 tok w x hw htokws]
            have hFgood := hF4 tok htoknn htokws
            rw [splitWs_token_cut (F tok) w (F x) hFgood.1 hFgood.2 hw]
            rw [splitWs_token_cut tok w x htoknn htokws hw]
            have hxlen : x.length ≤ n := by
              have : (tok ++ w :: x).length = (c :: rest).length := by rw [hsplit]
              simp only [List.length_append, List.length_cons] at this hl
              omega
            rw [ih x hxlen]
            rfl
  intro l
  exact H l.length l le_rfl

theorem map_ext_mem {α β : Type} (f g : α → β) :
    ∀ (l : List α), (∀ a ∈ l, f a = g a) → l.map f = l.map g := by
  intro l
  induction l with
  | nil => intro _; rfl
  | cons a rest ih =>
    intro h
    simp only [List.map_cons]
    rw [h a (by simp), ih (fun d hd => h d (by simp [hd]))]

theorem lowerStr_idem (l : List Nat) : lowerStr (lowerStr l) = lowerStr l := by
  simp only [lowerStr, List.map_map]
  exact map_ext_mem _ _ l (fun a _ => lowerChar_idem a)

theorem decompAll_lower (l : List Nat) :
    decompAll (lowerStr l) = lowerStr (decompAll l) := by
  induction l with
  | nil => rfl
  | cons c rest ih =>
    simp only [lowerStr, List.map_cons] at ih ⊢
    rw [decompAll_cons, decompAll_cons, ih, decomp_lowerChar c, List.map_append]

theorem nfc_lower_comm (l : List Nat) : nfc (lowerStr l) = lowerStr (nfc l) := by
  rw [nfc_eq, nfc_eq, decompAll_lower, compose_lower]

theorem decompAll_ne_nil (t : List Nat) (h : t ≠ []) : decompAll t ≠ [] := by
  cases t with
  | nil => exact absurd rfl h
  | cons c rest =>
    rw [decompAll_cons]
    intro hcontra
    rcases List.append_eq_nil.mp hcontra with ⟨h1, _⟩
    exact decomp_ne_nil c h1

theorem decompAll_nonws (t : List Nat) (h : ∀ c ∈ t, isWs c = false) :
    ∀ c ∈ decompAll t, isWs c = false := by
  intro c hc
  rcases List.mem_flatMap.mp hc with ⟨d, hd, hcd⟩
  have := decomp_nonws d (h d hd)
  simp only [List.all_eq_true, Bool.not_eq_true'] at this
  exact this c hcd

theorem nfc_split_token (t : List Nat) (w : Nat) (l : List Nat) (hw : isWs w = true) :
    nfc (t ++ w :: l) = nfc t ++ w :: nfc l := by
  rw [nfc_eq, nfc_eq, nfc_eq, decompAll_append, decompAll_cons, decomp_ws w hw]
  rw [List.singleton_append, compose_split_ws]
  exact hw

theorem nfc_ne_nil (t : List Nat) (h : t ≠ []) : nfc t ≠ [] := by
  rw [nfc_eq]
  exact compose_ne_nil _ (decompAll_ne_nil t h)

theorem nfc_nonws (t : List Nat) (h : ∀ c ∈ t, isWs c = false) :
    ∀ c ∈ nfc t, isWs c = false := by
  rw [nfc_eq]
  exact compose_nonws _ (decompAll_nonws t h)

theorem splitWs_lowerStr (l : List Nat) :
    split_whitespace (lowerStr l) = (split_whitespace l).map lowerStr := by
  refine splitWs_comm lowerStr rfl ?_ ?_ l
  · intro t w l2 hw ht
    simp [lowerStr, lowerChar_ws_fix w hw]
  · intro t h1 h2
    constructor
    · simp [lowerStr, h1]
    · intro c hc
      rcases List.mem_map.mp hc with ⟨d, hd, rfl⟩
      rw [isWs_lowerChar d]
      exact h2 d hd

theorem splitWs_nfc (l : List Nat) :
    split_whitespace (nfc l) = (split_whitespace l).map nfc := by
  refine splitWs_comm nfc rfl ?_ ?_ l
  · intro t w l2 hw _
    exact nfc_split_token t w l2 hw
  · intro t h1 h2
    exact ⟨nfc_ne_nil t h1, nfc_nonws t h2⟩

/-!  Joining tokens with single spaces. -/

theorem joinSp_cons2 (t t2 : List Nat) (ts : List (List Nat)) :
    joinSp (t :: t2 :: ts) = t ++ 0x20 :: joinSp (t2 :: ts) := rfl

theorem lowerStr_append (l1 l2 : List Nat) :
    lowerStr (l1 ++ l2) = lowerStr l1 ++ lowerStr l2 := by
  simp [lowerStr]

theorem lowerStr_cons (c : Nat) (l : List Nat) :
    lowerStr (c :: l) = lowerChar c :: lowerStr l := rfl

theorem lowerStr_joinSp : ∀ ts : List (List Nat),
    lowerStr (joinSp ts) = joinSp (ts.map lowerStr) := by
  intro ts
  induction ts with
  | nil => rfl
  | cons t ts2 ih =>
    cases ts2 with
    | nil => rfl
    | cons t2 ts3 =>
      rw [joinSp_cons2, List.map_cons, List.map_cons, joinSp_cons2,
        ← List.map_cons, ← ih, lowerStr_append, lowerStr_cons, lowerChar_sp]

theorem nfc_joinSp : ∀ ts : List (List Nat),
    nfc (joinSp ts) = joinSp (ts.map nfc) := by
  intro ts
  induction ts with
  | nil => rfl
  | cons t ts2 ih =>
    cases ts2 with
    | nil => rfl
    | cons t2 ts3 =>
      rw [joinSp_cons2, List.map_cons, List.map_cons, joinSp_cons2,
        ← List.map_cons, ← ih, nfc_split_token t 0x20 (joinSp (t2 :: ts3)) (by decide)]

theorem splitWs_joinSp : ∀ ts : List (List Nat),
    (∀ t ∈ ts, t ≠ [] ∧ ∀ c ∈ t, isWs c = false) →
    split_whitespace (joinSp ts) = ts := by
  intro ts
  induction ts with
  | nil => intro _; rfl
  | cons t ts2 ih =>
    intro h
    cases ts2 with
    | nil =>
      have ht := h t (by simp)
      exact splitWs_all_nonws t ht.1 ht.2
    | cons t2 ts3 =>
      rw [joinSp_cons2]
      have ht := h t (by simp)
      rw [splitWs_token_cut t 0x20 (joinSp (t2 :: ts3)) ht.1 ht.2 (by decide)]
      rw [ih (fun u hu => h u (by simp [hu]))]

/-!  Shape checkers for normalizer output: no whitespace other than single
ASCII spaces between nonempty tokens. -/

/-- Checks that no two adjacent characters are both whitespace. -/
def noAdjWs : List Nat → Bool
  | a :: b :: rest => (!(isWs a && isWs b)) && noAdjWs (b :: rest)
  | _ => true

/-- Checks that the first character, if any, is not whitespace. -/
def headNotWs : List Nat → Bool
  | [] => true
  | c :: _ => !isWs c

/-- Checks that the last character, if any, is not whitespace. -/
def lastNotWs : List Nat → Bool
  | [] => true
  | [c] => !isWs c
  | _ :: c :: rest => lastNotWs (c :: rest)

/-- Checks that every whitespace character is the ASCII space. -/
def wsOnlySpace (l : List Nat) : Bool := l.all (fun c => !isWs c || c == 0x20)

/-- Conjunction of the shape conditions: whitespace occurs only as single
ASCII spaces, never leading, trailing or adjacent to more whitespace. -/
def singleSpaced (l : List Nat) : Bool :=
  wsOnlySpace l && noAdjWs l && headNotWs l && lastNotWs l

theorem wsOnlySpace_joinSp : ∀ ts : List (List Nat),
    (∀ t ∈ ts, ∀ c ∈ t, isWs c = false) → wsOnlySpace (joinSp ts) = true := by
  intro ts
  induction ts with
  | nil => intro _; rfl
  | cons t ts2 ih =>
    intro h
    cases ts2 with
    | nil =>
      simp only [joinSp, wsOnlySpace, List.all_eq_true]
      intro c hc
      simp [h t (by simp) c hc]
    | cons t2 ts3 =>
      rw [joinSp_cons2]
      simp only [wsOnlySpace, List.all_append, List.all_cons, Bool.and_eq_true,
        List.all_eq_true] at ih ⊢
      refine ⟨?_, by decide, ?_⟩
      · intro c hc
        simp [h t (by simp) c hc]
      · exact ih (fun u hu c hc => h u (by simp [hu]) c hc)

theorem noAdjWs_append_token : ∀ (t l : List Nat), (∀ c ∈ t, isWs c = false) →
    noAdjWs l = true → noAdjWs (t ++ l) = true := by
  intro t
  induction t with
  | nil => intro l _ hl; simpa using hl
  | cons a t2 ih =>
    intro l ht hl
    rw [List.cons_append]
    cases h2 : t2 ++ l with
    | nil => rfl
    | cons b rest2 =>
      simp only [noAdjWs, Bool.and_eq_true]
      refine ⟨by simp [ht a (by simp)], ?_⟩
      rw [← h2]
      exact ih l (fun d hd => ht d (by simp [hd])) hl

theorem noAdjWs_all_nonws (t : List Nat) (h : ∀ c ∈ t, isWs c = false) :
    noAdjWs t = true := by
  have := noAdjWs_append_token t [] h rfl
  simpa using this

theorem noAdjWs_cons_sp (l : List Nat) (h1 : headNotWs l = true)
    (h2 : noAdjWs l = true) : noAdjWs (0x20 :: l) = true := by
  cases l with
  | nil => rfl
  | cons b rest =>
    simp only [headNotWs, Bool.not_eq_true'] at h1
    simp [noAdjWs, h1, h2]

theorem headNotWs_joinSp : ∀ ts : List (List Nat),
    (∀ t ∈ ts, t ≠ [] ∧ ∀ c ∈ t, isWs c = false) →
    headNotWs (joinSp ts) = true := by
  intro ts h
  cases ts with
  | nil => rfl
  | cons t ts2 =>
    have ht := h t (by simp)
    cases t with
    | nil => exact absurd rfl ht.1
    | cons c t2 =>
      have hc : isWs c = false := ht.2 c (by simp)
      cases ts2 with
      | nil => simp [joinSp, headNotWs, hc]
      | cons u us => simp [joinSp_cons2, headNotWs, hc]

theorem noAdjWs_joinSp : ∀ ts : List (List Nat),
    (∀ t ∈ ts, t ≠ [] ∧ ∀ c ∈ t, isWs c = false) →
    noAdjWs (joinSp ts) = true := by
  intro ts
  induction ts with
  | nil => intro _; rfl
  | cons t ts2 ih =>
    intro h
    have ht := h t (by simp)
    cases ts2 with
    | nil => exact noAdjWs_all_nonws t ht.2
    | cons t2 ts3 =>
      rw [joinSp_cons2]
      refine noAdjWs_append_token t _ ht.2 ?_
      refine noAdjWs_cons_sp _ ?_ ?_
      · exact headNotWs_joinSp (t2 :: ts3) (fun u hu => h u (by simp [hu]))
      · exact ih (fun u hu => h u (by simp [hu]))

theorem lastNotWs_append : ∀ (t l : List Nat), l ≠ [] →
    lastNotWs (t ++ l) = lastNotWs l := by
  intro t
  induction t with
  | nil => intro l _; rfl
  | cons a t2 ih =>
    intro l hl
    rw [List.cons_append]
    cases h2 : t2 ++ l with
    | nil => exact absurd (List.append_eq_nil.mp h2).2 hl
    | cons b rest2 =>
      show lastNotWs (b :: rest2) = lastNotWs l
      rw [← h2]
      exact ih l hl

theorem lastNotWs_token : ∀ t : List Nat, (∀ c ∈ t, isWs c = false) →
    lastNotWs t = true := by
  intro t
  induction t with
  | nil => intro _; rfl
  | cons a t2 ih =>
    intro h
    cases t2 with
    | nil => simp [lastNotWs, h a (by simp)]
    | cons b t3 =>
      show lastNotWs (b :: t3) = true
      exact ih (fun d hd => h d (by simp [hd]))

theorem joinSp_ne_nil (t : List Nat) (ts : List (List Nat)) (h : t ≠ []) :
    joinSp (t :: ts) ≠ [] := by
  cases ts with
  | nil => exact h
  | cons t2 ts3 =>
    rw [joinSp_cons2]
    intro hcontra
    rcases List.append_eq_nil.mp hcontra with ⟨h1, _⟩
    exact h h1

theorem lastNotWs_joinSp : ∀ ts : List (List Nat),
    (∀ t ∈ ts, t ≠ [] ∧ ∀ c ∈ t, isWs c = false) →
    lastNotWs (joinSp ts) = true := by
  intro ts
  induction ts with
  | nil => intro _; rfl
  | cons t ts2 ih =>
    intro h
    have ht := h t (by simp)
    cases ts2 with
    | nil => exact lastNotWs_token t ht.2
    | cons t2 ts3 =>
      rw [joinSp_cons2]
      have hrest : (∀ u ∈ t2 :: ts3, u ≠ [] ∧ ∀ c ∈ u, isWs c = false) :=
        fun u hu => h u (by simp [hu])
      rw [lastNotWs_append t _ (by simp)]
      cases hJ : joinSp (t2 :: ts3) with
      | nil => exact absurd hJ (joinSp_ne_nil t2 ts3 (hrest t2 (by simp)).1)
      | cons c rest =>
        show lastNotWs (c :: rest) = true
        rw [← hJ]
        exact ih hrest

/-- C10: for every input, the output of the normalizer has no leading or
trailing whitespace, no two adjacent whitespace characters, and every
whitespace character in it is the ASCII space U+0020; equivalently, each
whitespace run of the input collapses to a single space separating
nonempty tokens. -/
theorem c10_theorem (x : List Nat) : singleSpaced (noramlize_string x) = true := by
  unfold noramlize_string singleSpaced
  have hgood := splitWs_tokens_good (nfc (lowerStr x))
  rw [wsOnlySpace_joinSp _ (fun t ht => (hgood t ht).2),
    noAdjWs_joinSp _ hgood, headNotWs_joinSp _ hgood, lastNotWs_joinSp _ hgood]
  rfl

/-- C9: the normalizer is idempotent. -/
theorem c9_theorem (x : List Nat) :
    noramlize_string (noramlize_string x) = noramlize_string x := by
  unfold noramlize_string
  have hgood := splitWs_tokens_good (nfc (lowerStr x))
  have h1 : lowerStr (joinSp (split_whitespace (nfc (lowerStr x))))
      = joinSp (split_whitespace (nfc (lowerStr x))) := by
    rw [lowerStr_joinSp, ← splitWs_lowerStr, ← nfc_lower_comm, lowerStr_idem]
  have h2 : (split_whitespace (nfc (lowerStr x))).map nfc
      = split_whitespace (nfc (lowerStr x)) := by
    rw [splitWs_nfc (lowerStr x), List.map_map]
    exact map_ext_mem _ _ _ (fun t _ => nfc_idem t)
  have h3 : nfc (joinSp (split_whitespace (nfc (lowerStr x))))
      = joinSp (split_whitespace (nfc (lowerStr x))) := by
    rw [nfc_joinSp, h2]
  rw [h1, h3, splitWs_joinSp _ hgood]

/-- Two message texts have the same semantic content when they are related
by a chain of differences in letter case only, in whitespace runs only, or
in Unicode canonical composition form only. -/
inductive ContentEq : List Nat → List Nat → Prop
  | caseEq (m1 m2 : List Nat) : lowerStr m1 = lowerStr m2 → ContentEq m1 m2
  | wsEq (m1 m2 : List Nat) : split_whitespace m1 = split_whitespace m2 → ContentEq m1 m2
  | compEq (m1 m2 : List Nat) : nfc m1 = nfc m2 → ContentEq m1 m2
  | symm (m1 m2 : List Nat) : ContentEq m1 m2 → ContentEq m2 m1
  | trans (m1 m2 m3 : List Nat) : ContentEq m1 m2 → ContentEq m2 m3 → ContentEq m1 m3

/-- C8: texts that differ only in letter case, in whitespace runs, or in
Unicode canonical composition form receive equal canonical keys from the
normalizer. -/
theorem c8_theorem (m1 m2 : List Nat) (h : ContentEq m1 m2) :
    noramlize_string m1 = noramlize_string m2 := by
  induction h with
  | caseEq a b hab => unfold noramlize_string; rw [hab]
  | wsEq a b hab =>
    unfold noramlize_string
    rw [splitWs_nfc, splitWs_nfc, splitWs_lowerStr, splitWs_lowerStr, hab]
  | compEq a b hab =>
    unfold noramlize_string
    rw [nfc_lower_comm, nfc_lower_comm, hab]
  | symm a b _ ih => exact ih.symm
  | trans a b c _ _ ih1 ih2 => exact ih1.trans ih2

/-- C8 witness: the texts Hello(tab)(tab)World and hello world are related
by a case-only step followed by a whitespace-only step, and the normalizer
sends both to the same key. -/
theorem c8_witness :
    ContentEq [0x48, 0x65, 0x6C, 0x6C, 0x6F, 0x9, 0x9, 0x57, 0x6F, 0x72, 0x6C, 0x64]
      [0x68, 0x65, 0x6C, 0x6C, 0x6F, 0x20, 0x77, 0x6F, 0x72, 0x6C, 0x64] ∧
    noramlize_string [0x48, 0x65, 0x6C, 0x6C, 0x6F, 0x9, 0x9, 0x57, 0x6F, 0x72, 0x6C, 0x64]
      = noramlize_string [0x68, 0x65, 0x6C, 0x6C, 0x6F, 0x20, 0x77, 0x6F, 0x72, 0x6C, 0x64] := by
  have hchain : ContentEq [0x48, 0x65, 0x6C, 0x6C, 0x6F, 0x9, 0x9, 0x57, 0x6F, 0x72, 0x6C, 0x64]
      [0x68, 0x65, 0x6C, 0x6C, 0x6F, 0x20, 0x77, 0x6F, 0x72, 0x6C, 0x64] := by
    refine ContentEq.trans _ [0x68, 0x65, 0x6C, 0x6C, 0x6F, 0x9, 0x9, 0x77, 0x6F, 0x72, 0x6C, 0x64] _ ?_ ?_
    · exact ContentEq.caseEq _ _ (by decide)
    · exact ContentEq.wsEq _ _ (by decide)
  exact ⟨hchain, c8_theorem _ _ hchain⟩

/-!  Program-level model of main.rs: the dedup cache, the live message
handler, the startup catch-up scan, persistence, and startup loading.
Platform effects (message deletion, state saves) are recorded as actions. -/

/-- A chat message as the handlers see it. -/
structure Message where
  id : Nat
  channel_id : Nat
  content : List Nat
  deriving DecidableEq

/-- The dedup state (struct MessagesCache, main.rs lines 21-25): the set of
normalized keys seen so far and the id of the last processed message. -/
structure MessagesCache where
  cache : List (List Nat)
  last_message_id : Option Nat
  deriving DecidableEq

/-- HashSet::insert as used on main.rs lines 165 and 197: insert the key if
absent and report whether it was newly inserted. -/
def cacheInsert (s : List (List Nat)) (k : List Nat) : List (List Nat) × Bool :=
  if k ∈ s then (s, false) else (k :: s, true)

/-- Observable platform effects of the handlers. -/
inductive Action
  | deleteMsg (id : Nat)
  | save (cache : List (List Nat)) (hwm : Option Nat)
  | enqueueDeletion (id : Nat) (dueAt : Nat)
  deriving DecidableEq

/-- The live message handler (main.rs lines 187-218): events for other
channels are ignored; otherwise the content is normalized and inserted,
last_message_id is set to the id of this message unconditionally (line 196,
before the insert on line 197), a duplicate is deleted, and the state is
committed to disk in every case (lines 208-214). -/
def handleMessage (cid : Nat) (st : MessagesCache) (m : Message) :
    MessagesCache × List Action :=
  if m.channel_id ≠ cid then (st, [])
  else
    let key := noramlize_string m.content
    let res := cacheInsert st.cache key
    let st2 : MessagesCache := ⟨res.1, some m.id⟩
    (st2, (if res.2 then [] else [Action.deleteMsg m.id]) ++
      [Action.save st2.cache st2.last_message_id])

/-- Platform history fetch as the Ready handler uses it (main.rs lines
153-158): with a marker, up to 100 messages with strictly larger ids, the
oldest such messages first by id when the channel list is ascending; without
a marker, the most recent 100.  Pages are returned newest-first, matching
the source comment on line 174. -/
def fetchAfter (chan : List Message) (after : Option Nat) : List Message :=
  match after with
  | some a => ((chan.filter (fun m => a < m.id)).take 100).reverse
  | none => (chan.reverse).take 100

/-- Processing of one page in the order returned by the platform (main.rs
lines 162-173): each message is normalized and inserted; a duplicate is
deleted via the platform, with failures logged and ignored. -/
def processPage : List (List Nat) → List Message → List (List Nat) × List Action
  | c, [] => (c, [])
  | c, m :: ms =>
    let res := cacheInsert c (noramlize_string m.content)
    let rest := processPage res.1 ms
    (rest.1, (if res.2 then [] else [Action.deleteMsg m.id]) ++ rest.2)

/-- The catch-up pagination loop (main.rs lines 152-175), with explicit
fuel for termination: fetch a page after the current marker, stop on an
empty page (the Bool records that the loop ended this way), otherwise
process the page and advance the marker to the id of the first returned
message (the newest of the page). -/
def catchUpLoop (chan : List Message) : Nat → List (List Nat) → Option Nat →
    List (List Nat) × Option Nat × List Action × Bool
  | 0, c, last => (c, last, [], false)
  | fuel+1, c, last =>
    match fetchAfter chan last with
    | [] => (c, last, [], true)
    | m :: page2 =>
      let pr := processPage c (m :: page2)
      let r := catchUpLoop chan fuel pr.1 (some m.id)
      (r.1, r.2.1, pr.2 ++ r.2.2.1, r.2.2.2)

/-- The whole Ready-event catch-up (main.rs lines 149-184): run the loop,
store the final marker in the cache and commit the state to disk. -/
def catchUp (chan : List Message) (fuel : Nat) (st : MessagesCache) :
    MessagesCache × List Action × Bool :=
  let r := catchUpLoop chan fuel st.cache st.last_message_id
  (⟨r.1, r.2.1⟩, r.2.2.1 ++ [Action.save r.1 r.2.1], r.2.2.2)

/-- Follows the words of the spec for comparison with catchUpLoop: each
page is processed oldest-to-newest, that is, in the reverse of the
platform-returned order. -/
def catchUpLoopOldest (chan : List Message) : Nat → List (List Nat) → Option Nat →
    List (List Nat) × Option Nat × List Action × Bool
  | 0, c, last => (c, last, [], false)
  | fuel+1, c, last =>
    match fetchAfter chan last with
    | [] => (c, last, [], true)
    | m :: page2 =>
      let pr := processPage c (m :: page2).reverse
      let r := catchUpLoopOldest chan fuel pr.1 (some m.id)
      (r.1, r.2.1, pr.2 ++ r.2.2.1, r.2.2.2)

/-- Follows the words of the spec for comparison with catchUp. -/
def catchUpOldest (chan : List Message) (fuel : Nat) (st : MessagesCache) :
    MessagesCache × List Action × Bool :=
  let r := catchUpLoopOldest chan fuel st.cache st.last_message_id
  (⟨r.1, r.2.1⟩, r.2.2.1 ++ [Action.save r.1 r.2.1], r.2.2.2)

/-- A whole lifetime of try-insert calls starting from a given cache,
returning the reported Bool of each call in order. -/
def runInserts : List (List Nat) → List (List Nat) → List Bool
  | _, [] => []
  | c, k :: ks =>
    let res := cacheInsert c k
    res.2 :: runInserts res.1 ks

/-- Failure kinds of File::open, which the source matches with a wildcard
(main.rs line 233). -/
inductive OpenErr
  | notFound
  | permissionDenied
  deriving DecidableEq

/-- Outcome of startup: either the process proceeds with a state, or it
panics before serving events. -/
inductive StartupOutcome
  | proceeds (st : MessagesCache)
  | fatalError
  deriving DecidableEq

/-- The startup load (main.rs lines 229-234 with MessagesCache::from_file,
lines 33-37): any File::open error yields a fresh empty cache, while a file
that opens but fails to deserialize hits the expect and panics.  The Except
argument models the File::open outcome and the Option models whether
serde_json::from_reader succeeds on the opened file. -/
def loadStartup : Except OpenErr (Option MessagesCache) → StartupOutcome
  | Except.error _ => StartupOutcome.proceeds ⟨[], none⟩
  | Except.ok (some st) => StartupOutcome.proceeds st
  | Except.ok none => StartupOutcome.fatalError

/-!  Filesystem model for the save path, tracking the contents of the
well-known state path and of a temporary path, with crash points. -/

/-- Filesystem operations over the state path and a temporary path. -/
inductive FsOp
  | createMain
  | writeMain (d : List Nat)
  | createTmp
  | writeTmp (d : List Nat)
  | renameTmpMain
  deriving DecidableEq

/-- Contents of the two paths; none means the file is absent. -/
structure FsState where
  main : Option (List Nat)
  tmp : Option (List Nat)
  deriving DecidableEq

/-- Effect of one completed filesystem operation.  Creation truncates. -/
def applyOp (s : FsState) : FsOp → FsState
  | FsOp.createMain => ⟨some [], s.tmp⟩
  | FsOp.writeMain d => ⟨some d, s.tmp⟩
  | FsOp.createTmp => ⟨s.main, some []⟩
  | FsOp.writeTmp d => ⟨s.main, some d⟩
  | FsOp.renameTmpMain => ⟨s.tmp, none⟩

/-- States observable if the process crashes during one operation: writes
may land any prefix of their data; create and rename are atomic. -/
def midWriteStates (s : FsState) : FsOp → List FsState
  | FsOp.writeMain d => (List.range (d.length + 1)).map (fun j => ⟨some (d.take j), s.tmp⟩)
  | FsOp.writeTmp d => (List.range (d.length + 1)).map (fun j => ⟨s.main, some (d.take j)⟩)
  | op => [applyOp s op]

/-- Every state observable if the process crashes at any point while the
given operations run. -/
def crashStates : List FsOp → FsState → List FsState
  | [], s => [s]
  | op :: ops, s => s :: midWriteStates s op ++ crashStates ops (applyOp s op)

/-- Abstract stand-in for the serde_json serialization of the state; only
its nonemptiness and its dependence on the state matter here.  It opens and
closes with the brace codepoints like the real JSON record. -/
def serialize (st : MessagesCache) : List Nat :=
  0x7B :: (st.cache.flatMap (fun k => k ++ [0x2C])) ++
    (match st.last_message_id with | none => [] | some n => [n]) ++ [0x7D]

/-- The save path of the source (main.rs lines 181-183 and 211-213):
File::create on the well-known path, then one write of the serialized
state.  No temporary file, no rename. -/
def saveOps (st : MessagesCache) : List FsOp :=
  [FsOp.createMain, FsOp.writeMain (serialize st)]

/-- Follows the words of the spec for comparison with saveOps: write to a
temporary location, then rename onto the well-known path. -/
def atomicSaveOps (st : MessagesCache) : List FsOp :=
  [FsOp.createTmp, FsOp.writeTmp (serialize st), FsOp.renameTmpMain]

/-!  Delayed-deletion scheduler.  Modelled from the spec: the
fleeting-message scheduler (spec sections 3, 4.4 and 4.5) is not part of
the sources under src/, whose event handler implements only dedup. -/

/-- Modelled from the spec: a DeletionTask with its message reference,
posting time, due time and attempt count (spec section 3). -/
structure DeletionTask where
  messageId : Nat
  postedAt : Nat
  dueAt : Nat
  attempt : Nat
  deriving DecidableEq

/-- Modelled from the spec: a fresh task is due a fixed delay after its
posting time. -/
def mkDeletionTask (delay postedAt mid : Nat) : DeletionTask :=
  ⟨mid, postedAt, postedAt + delay, 0⟩

/-- Modelled from the spec: tasks enter the ordered queue at the tail,
FIFO by arrival. -/
def enqueueTask (q : List DeletionTask) (t : DeletionTask) : List DeletionTask :=
  q ++ [t]

/-- Modelled from the spec: one step of the scheduler worker (spec section
4.4).  The worker sleeps while the head task is not yet due; once due it
attempts the platform delete: success pops the task, failure increments its
attempt count and requeues it at the head. -/
def workerFire (q : List DeletionTask) (now : Nat) (deleteOk : Bool) :
    List DeletionTask :=
  match q with
  | [] => []
  | t :: rest =>
    if now < t.dueAt then q
    else if deleteOk then rest
    else ⟨t.messageId, t.postedAt, t.dueAt, t.attempt + 1⟩ :: rest

/-- Modelled from the spec: ingestion under the fleeting-message policy
(spec section 4.5): a duplicate is deleted immediately and not enqueued;
a non-duplicate advances the mark, is persisted, and is enqueued for
delayed deletion. -/
def handleMessageFleeting (delay cid : Nat) (st : MessagesCache)
    (q : List DeletionTask) (m : Message) (postedAt : Nat) :
    MessagesCache × List DeletionTask × List Action :=
  if m.channel_id ≠ cid then (st, q, [])
  else
    let key := noramlize_string m.content
    let res := cacheInsert st.cache key
    let st2 : MessagesCache := ⟨res.1, some m.id⟩
    if res.2 then
      (st2, enqueueTask q (mkDeletionTask delay postedAt m.id),
        [Action.save st2.cache st2.last_message_id])
    else
      (st2, q, [Action.deleteMsg m.id, Action.save st2.cache st2.last_message_id])

/-!  Event traces over the two state-changing handlers, for the high-water
mark invariant. -/

/-- An event the process reacts to: a live message or a Ready-event
catch-up over the channel history current at that moment. -/
inductive Ev
  | live (m : Message)
  | ready (chan : List Message) (fuel : Nat)

/-- State transition of one event. -/
def stepEv (cid : Nat) (st : MessagesCache) : Ev → MessagesCache
  | Ev.live m => (handleMessage cid st m).1
  | Ev.ready chan fuel => (catchUp chan fuel st).1

/-- State after a trace of events. -/
def runEvs (cid : Nat) : MessagesCache → List Ev → MessagesCache
  | st, [] => st
  | st, e :: evs => runEvs cid (stepEv cid st e) evs

/-- Order on marks: absent precedes everything, present marks compare by
id. -/
def hwmLeB : Option Nat → Option Nat → Bool
  | none, _ => true
  | some _, none => false
  | some a, some b => decide (a ≤ b)

/-- Checks that the trace respects the platform message ordering: every
live message on the monitored channel carries an id at least the current
mark.  Catch-up events need no condition. -/
def orderedEvs (cid : Nat) : MessagesCache → List Ev → Bool
  | _, [] => true
  | st, e :: evs =>
    (match e, st.last_message_id with
     | Ev.live m, some h => (m.channel_id != cid) || decide (h ≤ m.id)
     | _, _ => true) && orderedEvs cid (stepEv cid st e) evs

/-!  Claim C1: live handler behavior. -/

/-- C1 counterexample: a message whose normalized content is already
cached (a duplicate) still advances the high-water mark to its id and
still triggers a state save, contradicting the claim that the mark is
advanced and the state persisted only for non-duplicates. -/
theorem c1_counterexample :
    noramlize_string [0x41] ∈ ([[0x61]] : List (List Nat)) ∧
    (handleMessage 9 ⟨[[0x61]], some 3⟩ ⟨5, 9, [0x41]⟩).1.last_message_id = some 5 ∧
    Action.save [[0x61]] (some 5) ∈ (handleMessage 9 ⟨[[0x61]], some 3⟩ ⟨5, 9, [0x41]⟩).2 := by
  decide

/-- C1 as amended: for every message on the monitored channel the handler
normalizes the content and calls try-insert; a duplicate is deleted
immediately and no deletion task is ever enqueued; the high-water mark is
advanced to the id of this message and the state is persisted
unconditionally, for duplicates and non-duplicates alike. -/
theorem c1_theorem (cid : Nat) (st : MessagesCache) (m : Message)
    (h : m.channel_id = cid) :
    (handleMessage cid st m).1.last_message_id = some m.id ∧
    (handleMessage cid st m).1.cache = (cacheInsert st.cache (noramlize_string m.content)).1 ∧
    Action.save (handleMessage cid st m).1.cache (some m.id) ∈ (handleMessage cid st m).2 ∧
    (noramlize_string m.content ∈ st.cache →
      Action.deleteMsg m.id ∈ (handleMessage cid st m).2) ∧
    (noramlize_string m.content ∉ st.cache →
      ∀ i, Action.deleteMsg i ∉ (handleMessage cid st m).2) ∧
    (∀ i d, Action.enqueueDeletion i d ∉ (handleMessage cid st m).2) := by
  unfold handleMessage
  rw [if_neg (by simp [h])]
  by_cases hk : noramlize_string m.content ∈ st.cache
  · simp [cacheInsert, hk]
  · simp [cacheInsert, hk]

/-- C1 witness: a fresh message on the monitored channel. -/
theorem c1_witness :
    (Message.mk 5 9 [0x41]).channel_id = 9 ∧
    ((handleMessage 9 ⟨[], none⟩ ⟨5, 9, [0x41]⟩).1.last_message_id = some (Message.mk 5 9 [0x41]).id ∧
    (handleMessage 9 ⟨[], none⟩ ⟨5, 9, [0x41]⟩).1.cache =
      (cacheInsert ([] : List (List Nat)) (noramlize_string [0x41])).1 ∧
    Action.save (handleMessage 9 ⟨[], none⟩ ⟨5, 9, [0x41]⟩).1.cache (some (Message.mk 5 9 [0x41]).id)
      ∈ (handleMessage 9 ⟨[], none⟩ ⟨5, 9, [0x41]⟩).2 ∧
    (noramlize_string [0x41] ∈ ([] : List (List Nat)) →
      Action.deleteMsg (Message.mk 5 9 [0x41]).id ∈ (handleMessage 9 ⟨[], none⟩ ⟨5, 9, [0x41]⟩).2) ∧
    (noramlize_string [0x41] ∉ ([] : List (List Nat)) →
      ∀ i, Action.deleteMsg i ∉ (handleMessage 9 ⟨[], none⟩ ⟨5, 9, [0x41]⟩).2) ∧
    (∀ i d, Action.enqueueDeletion i d ∉ (handleMessage 9 ⟨[], none⟩ ⟨5, 9, [0x41]⟩).2)) :=
  ⟨rfl, c1_theorem 9 ⟨[], none⟩ ⟨5, 9, [0x41]⟩ rfl⟩

/-!  Claim C2: delayed expiry under the fleeting-message policy. -/

/-- C2: a message on the monitored channel that is not an immediate
duplicate gets a deletion task enqueued, due exactly the fixed delay after
its posting time; once the delay has elapsed and the platform delete
succeeds, the worker removes the task from the queue and does not retry
it. -/
theorem c2_theorem (delay cid t0 : Nat) (st : MessagesCache)
    (q : List DeletionTask) (m : Message) (h1 : m.channel_id = cid)
    (h2 : noramlize_string m.content ∉ st.cache) :
    (handleMessageFleeting delay cid st q m t0).2.1 = q ++ [mkDeletionTask delay t0 m.id] ∧
    (mkDeletionTask delay t0 m.id).dueAt = t0 + delay ∧
    (∀ now rest, (mkDeletionTask delay t0 m.id).dueAt ≤ now →
      workerFire (mkDeletionTask delay t0 m.id :: rest) now true = rest) ∧
    (∀ now rest, (mkDeletionTask delay t0 m.id).dueAt ≤ now →
      mkDeletionTask delay t0 m.id ∉ rest →
      mkDeletionTask delay t0 m.id ∉ workerFire (mkDeletionTask delay t0 m.id :: rest) now true) := by
  refine ⟨?_, rfl, ?_, ?_⟩
  · unfold handleMessageFleeting
    rw [if_neg (by simp [h1])]
    simp [cacheInsert, h2, enqueueTask]
  · intro now rest hle
    have hlt : ¬ now < (mkDeletionTask delay t0 m.id).dueAt := by omega
    simp [workerFire, hlt]
  · intro now rest hle hni
    have hlt : ¬ now < (mkDeletionTask delay t0 m.id).dueAt := by omega
    simp only [workerFire, if_neg hlt, if_pos rfl]
    exact hni

/-- C2 witness: one fresh message, delay 60, posted at time 100; the task
is due at 160 and a successful delete at time 160 removes it. -/
theorem c2_witness :
    (Message.mk 5 9 [0x41]).channel_id = 9 ∧
    noramlize_string [0x41] ∉ ([] : List (List Nat)) ∧
    ((handleMessageFleeting 60 9 ⟨[], none⟩ [] ⟨5, 9, [0x41]⟩ 100).2.1
        = [] ++ [mkDeletionTask 60 100 (Message.mk 5 9 [0x41]).id] ∧
    (mkDeletionTask 60 100 (Message.mk 5 9 [0x41]).id).dueAt = 100 + 60 ∧
    (∀ now rest, (mkDeletionTask 60 100 (Message.mk 5 9 [0x41]).id).dueAt ≤ now →
      workerFire (mkDeletionTask 60 100 (Message.mk 5 9 [0x41]).id :: rest) now true = rest) ∧
    (∀ now rest, (mkDeletionTask 60 100 (Message.mk 5 9 [0x41]).id).dueAt ≤ now →
      mkDeletionTask 60 100 (Message.mk 5 9 [0x41]).id ∉ rest →
      mkDeletionTask 60 100 (Message.mk 5 9 [0x41]).id ∉
        workerFire (mkDeletionTask 60 100 (Message.mk 5 9 [0x41]).id :: rest) now true)) :=
  ⟨rfl, by decide, c2_theorem 60 9 100 ⟨[], none⟩ [] ⟨5, 9, [0x41]⟩ rfl (by decide)⟩

/-!  Claim C4: try-insert returns true exactly on the first call per key. -/

theorem runInserts_length : ∀ (ks c : List (List Nat)),
    (runInserts c ks).length = ks.length := by
  intro ks
  induction ks with
  | nil => intro c; rfl
  | cons k ks2 ih =>
    intro c
    simp [runInserts, ih]

theorem cacheInsert_mem (c : List (List Nat)) (k x : List Nat) :
    x ∈ (cacheInsert c k).1 ↔ (x ∈ c ∨ x = k) := by
  unfold cacheInsert
  by_cases hk : k ∈ c
  · rw [if_pos hk]
    simp only [iff_self_or]
    intro hx
    rw [hx]
    exact hk
  · rw [if_neg hk]
    simp [or_comm]

theorem runInserts_spec : ∀ (ks c : List (List Nat)) (i : Nat)
    (h : i < ks.length) (h2 : i < (runInserts c ks).length),
    ((runInserts c ks).get ⟨i, h2⟩ = true ↔
      (ks.get ⟨i, h⟩ ∉ c ∧ ks.get ⟨i, h⟩ ∉ ks.take i)) := by
  intro ks
  induction ks with
  | nil => intro c i h _; exact absurd h (by simp)
  | cons k ks2 ih =>
    intro c i h h2
    cases i with
    | zero =>
      by_cases hk : k ∈ c
      · simp [runInserts, cacheInsert, hk]
      · simp [runInserts, cacheInsert, hk]
    | succ i2 =>
      have hlen : i2 < ks2.length := by simpa using h
      have hlen2 : i2 < (runInserts (cacheInsert c k).1 ks2).length := by
        rw [runInserts_length]
        exact hlen
      have hiff := ih (cacheInsert c k).1 i2 hlen hlen2
      simp only [runInserts, List.get_eq_getElem, List.getElem_cons_succ,
        List.take_succ_cons, List.mem_cons, not_or] at hiff ⊢
      rw [hiff]
      have hmem := cacheInsert_mem c k ks2[i2]
      constructor
      · rintro ⟨ha, hb⟩
        rw [hmem] at ha
        push_neg at ha
        exact ⟨ha.1, ha.2, hb⟩
      · rintro ⟨ha, hb, hc⟩
        refine ⟨?_, hc⟩
        rw [hmem]
        push_neg
        exact ⟨ha, hb⟩

/-- C4: over a lifetime of try-insert calls starting from the empty cache,
the call at position i reports true exactly when no earlier call used the
same key: the first call with a key returns true and every later call with
that key returns false. -/
theorem c4_theorem (ks : List (List Nat)) (i : Nat) (h : i < ks.length) :
    (runInserts [] ks).get ⟨i, by rw [runInserts_length]; exact h⟩ = true ↔
      ks.get ⟨i, h⟩ ∉ ks.take i := by
  rw [runInserts_spec ks [] i h]
  simp

/-- C4 witness: with the same key inserted twice, the first call reports
true and the second false. -/
theorem c4_witness :
    (1 < ([[0x61], [0x61]] : List (List Nat)).length) ∧
    ((runInserts [] [[0x61], [0x61]]).get ⟨1, by decide⟩ = true ↔
      ([[0x61], [0x61]] : List (List Nat)).get ⟨1, by decide⟩ ∉
        ([[0x61], [0x61]] : List (List Nat)).take 1) ∧
    (runInserts [] [[0x61], [0x61]]).get ⟨1, by decide⟩ = false ∧
    (runInserts [] [[0x61], [0x61]]).get ⟨0, by decide⟩ = true :=
  ⟨by decide, c4_theorem [[0x61], [0x61]] 1 (by decide), by decide, by decide⟩

/-!  Claim C5: atomicity of saves. -/

/-- C5 counterexample: running the save of the source over a state whose
serialization is nonempty, a crash between the create and the completed
write is observable with an empty (truncated) file at the well-known path,
equal neither to the previous contents nor to the new serialization. -/
theorem c5_counterexample :
    FsState.mk (some []) none ∈
      crashStates (saveOps ⟨[[0x61]], some 3⟩) ⟨some [0x7B, 0x7D], none⟩ ∧
    some ([] : List Nat) ≠ some (serialize ⟨[[0x61]], some 3⟩) ∧
    some ([] : List Nat) ≠ some [0x7B, 0x7D] := by
  decide

/-- C5 as amended: the save is not atomic; the state is written directly
at the well-known path by a create (which truncates) followed by one
write, with no temporary file and no rename, so a crash between the create
and the completed write leaves a truncated state file at that path. -/
theorem c5_theorem (st : MessagesCache) (s0 : FsState) :
    saveOps st = [FsOp.createMain, FsOp.writeMain (serialize st)] ∧
    FsOp.renameTmpMain ∉ saveOps st ∧
    FsOp.createTmp ∉ saveOps st ∧
    FsState.mk (some []) s0.tmp ∈ crashStates (saveOps st) s0 ∧
    serialize st ≠ [] := by
  refine ⟨rfl, by simp [saveOps], by simp [saveOps], ?_, by simp [serialize]⟩
  simp [crashStates, midWriteStates, applyOp, saveOps]

/-- Supporting contrast: under the save procedure the spec describes, the
well-known path always holds either the old contents or the complete new
serialization at every crash point. -/
theorem atomicSaveOps_no_truncation (st : MessagesCache) (s0 : FsState) :
    ∀ s ∈ crashStates (atomicSaveOps st) s0,
      s.main = s0.main ∨ s.main = some (serialize st) := by
  intro s hs
  simp only [atomicSaveOps, crashStates, midWriteStates, applyOp,
    List.mem_cons, List.mem_append, List.mem_map, List.mem_range,
    List.not_mem_nil, or_false, List.mem_singleton] at hs
  rcases hs with (h | h) | (h | ⟨j, hj, h⟩) | (h | h) | h
  all_goals subst h
  all_goals first
    | exact Or.inl rfl
    | exact Or.inr rfl

/-!  Claim C6: startup load failure shapes. -/

/-- C6 counterexample: a file that is present but unreadable, so that
File::open fails with a permission error, yields a fresh empty state and
startup proceeds, contradicting the claim that a present but unreadable
file is fatal. -/
theorem c6_counterexample :
    loadStartup (Except.error OpenErr.permissionDenied)
      = StartupOutcome.proceeds ⟨[], none⟩ ∧
    loadStartup (Except.error OpenErr.permissionDenied)
      ≠ StartupOutcome.fatalError := by
  exact ⟨rfl, by decide⟩

/-- C6 as amended: when File::open fails for any reason, absent file and
unreadable file alike, the program proceeds with a fresh empty state; only
a file that opens but cannot be deserialized is fatal at startup. -/
theorem c6_theorem :
    (∀ e, loadStartup (Except.error e) = StartupOutcome.proceeds ⟨[], none⟩) ∧
    (∀ st, loadStartup (Except.ok (some st)) = StartupOutcome.proceeds st) ∧
    loadStartup (Except.ok none) = StartupOutcome.fatalError :=
  ⟨fun _ => rfl, fun _ => rfl, rfl⟩

/-!  Claim C7: the high-water mark never moves backward along the platform
ordering. -/

theorem hwmLeB_refl (o : Option Nat) : hwmLeB o o = true := by
  cases o <;> simp [hwmLeB]

theorem hwmLeB_trans (a b c : Option Nat) (h1 : hwmLeB a b = true)
    (h2 : hwmLeB b c = true) : hwmLeB a c = true := by
  cases a <;> cases b <;> cases c <;> simp [hwmLeB] at h1 h2 ⊢ <;> omega

theorem catchUpLoop_hwm : ∀ (fuel : Nat) (chan : List Message)
    (c : List (List Nat)) (last : Option Nat),
    hwmLeB last (catchUpLoop chan fuel c last).2.1 = true := by
  intro fuel
  induction fuel with
  | zero => intro chan c last; exact hwmLeB_refl last
  | succ n ih =>
    intro chan c last
    cases hpage : fetchAfter chan last with
    | nil => simp [catchUpLoop, hpage, hwmLeB_refl]
    | cons m page2 =>
      have hstep : (catchUpLoop chan (n + 1) c last).2.1
          = (catchUpLoop chan n (processPage c (m :: page2)).1 (some m.id)).2.1 := by
        simp [catchUpLoop, hpage]
      rw [hstep]
      refine hwmLeB_trans last (some m.id) _ ?_ (ih chan _ (some m.id))
      cases last with
      | none => rfl
      | some a =>
        have hm : m ∈ fetchAfter chan (some a) := by rw [hpage]; simp
        unfold fetchAfter at hm
        rw [List.mem_reverse] at hm
        have hm2 := List.mem_of_mem_take hm
        have hm3 := (List.mem_filter.mp hm2).2
        simp only [decide_eq_true_eq] at hm3
        simp only [hwmLeB, decide_eq_true_eq]
        omega

theorem catchUp_hwm (chan : List Message) (fuel : Nat) (st : MessagesCache) :
    hwmLeB st.last_message_id (catchUp chan fuel st).1.last_message_id = true :=
  catchUpLoop_hwm fuel chan st.cache st.last_message_id

/-- C7: along any event trace that respects the platform message ordering,
the high-water mark is monotonically non-decreasing: it only moves
forward, across both live ingestion and catch-up. -/
theorem c7_theorem (cid : Nat) : ∀ (evs : List Ev) (st : MessagesCache),
    orderedEvs cid st evs = true →
    hwmLeB st.last_message_id (runEvs cid st evs).last_message_id = true := by
  intro evs
  induction evs with
  | nil => intro st _; exact hwmLeB_refl _
  | cons e evs2 ih =>
    intro st h
    simp only [orderedEvs, Bool.and_eq_true] at h
    obtain ⟨hcond, hrest⟩ := h
    show hwmLeB st.last_message_id
      (runEvs cid (stepEv cid st e) evs2).last_message_id = true
    refine hwmLeB_trans _ (stepEv cid st e).last_message_id _ ?_ (ih _ hrest)
    cases e with
    | ready chan fuel => exact catchUp_hwm chan fuel st
    | live m =>
      show hwmLeB st.last_message_id
        (handleMessage cid st m).1.last_message_id = true
      by_cases hch : m.channel_id = cid
      · unfold handleMessage
        rw [if_neg (by simp [hch])]
        cases hlast : st.last_message_id with
        | none => rfl
        | some h0 =>
          rw [hlast] at hcond
          simp only [Bool.or_eq_true, bne_iff_ne, ne_eq, decide_eq_true_eq] at hcond
          rcases hcond with hbad | hle
          · exact absurd hch hbad
          · simp only [hwmLeB, decide_eq_true_eq]
            omega
      · unfold handleMessage
        rw [if_pos hch]
        exact hwmLeB_refl _

/-- C7 witness: a trace with two ordered live messages and a catch-up over
a one-message channel. -/
theorem c7_witness :
    orderedEvs 9 ⟨[], none⟩
      [Ev.live ⟨5, 9, [0x41]⟩, Ev.ready [⟨7, 9, [0x63]⟩] 2, Ev.live ⟨9, 9, [0x62]⟩] = true ∧
    hwmLeB (MessagesCache.mk [] none).last_message_id
      (runEvs 9 ⟨[], none⟩
        [Ev.live ⟨5, 9, [0x41]⟩, Ev.ready [⟨7, 9, [0x63]⟩] 2, Ev.live ⟨9, 9, [0x62]⟩]).last_message_id = true :=
  ⟨by decide, c7_theorem 9 _ _ (by decide)⟩

/-!  Claim C3: the catch-up scan. -/

/-- The full sequence of messages the catch-up loop fetches, page after
page, in the order it processes them. -/
def fetchedSeq (chan : List Message) : Nat → Option Nat → List Message
  | 0, _ => []
  | fuel+1, last =>
    match fetchAfter chan last with
    | [] => []
    | m :: page2 => (m :: page2) ++ fetchedSeq chan fuel (some m.id)

/-- Expected final high-water mark of a catch-up over an ascending
channel: the id of the newest message strictly after the stored mark when
one exists, the mark unchanged otherwise; with no stored mark, the id of
the newest channel message when the channel is nonempty. -/
def expectedFinal (chan : List Message) : Option Nat → Option Nat
  | some a =>
    match (chan.filter (fun m => a < m.id)).getLast? with
    | none => some a
    | some m => some m.id
  | none =>
    match chan.getLast? with
    | none => none
    | some m => some m.id

theorem processPage_append : ∀ (xs ys : List Message) (c : List (List Nat)),
    processPage c (xs ++ ys) =
      ((processPage (processPage c xs).1 ys).1,
       (processPage c xs).2 ++ (processPage (processPage c xs).1 ys).2) := by
  intro xs
  induction xs with
  | nil => intro ys c; simp [processPage]
  | cons m xs2 ih =>
    intro ys c
    simp only [List.cons_append, processPage, List.append_eq]
    rw [ih ys (cacheInsert c (noramlize_string m.content)).1]
    simp [List.append_assoc]

theorem catchUpLoop_run : ∀ (fuel : Nat) (chan : List Message)
    (c : List (List Nat)) (last : Option Nat),
    (catchUpLoop chan fuel c last).1 = (processPage c (fetchedSeq chan fuel last)).1 ∧
    (catchUpLoop chan fuel c last).2.2.1 = (processPage c (fetchedSeq chan fuel last)).2 := by
  intro fuel
  induction fuel with
  | zero => intro chan c last; exact ⟨rfl, rfl⟩
  | succ n ih =>
    intro chan c last
    cases hpage : fetchAfter chan last with
    | nil => simp [catchUpLoop, fetchedSeq, hpage, processPage]
    | cons m page2 =>
      have hrec := ih chan (processPage c (m :: page2)).1 (some m.id)
      constructor
      · simp only [catchUpLoop, fetchedSeq, hpage]
        rw [processPage_append]
        exact hrec.1
      · simp only [catchUpLoop, fetchedSeq, hpage]
        rw [processPage_append]
        rw [hrec.2]

theorem fetchedSeq_gt : ∀ (fuel : Nat) (chan : List Message) (a : Nat),
    ∀ m ∈ fetchedSeq chan fuel (some a), a < m.id := by
  intro fuel
  induction fuel with
  | zero => intro chan a m hm; simp [fetchedSeq] at hm
  | succ n ih =>
    intro chan a x hx
    cases hpage : fetchAfter chan (some a) with
    | nil => rw [fetchedSeq, hpage] at hx; simp at hx
    | cons m page2 =>
      rw [fetchedSeq, hpage] at hx
      have hpagemem : ∀ y ∈ (m :: page2), a < y.id := by
        intro y hy
        have hy2 : y ∈ fetchAfter chan (some a) := by rw [hpage]; exact hy
        unfold fetchAfter at hy2
        rw [List.mem_reverse] at hy2
        have hy3 := (List.mem_filter.mp (List.mem_of_mem_take hy2)).2
        simpa using hy3
      rcases List.mem_append.mp hx with hx | hx
      · exact hpagemem x hx
      · have h1 := ih chan m.id x hx
        have h2 := hpagemem m (by simp)
        omega

theorem sorted_le_getLast : ∀ (l : List Message) (hl : l ≠ [])
    (hp : List.Pairwise (fun x y => x.id < y.id) l) (x : Message), x ∈ l →
    x.id ≤ (l.getLast hl).id := by
  intro l
  induction l with
  | nil => intro hl; exact absurd rfl hl
  | cons y l2 ih =>
    intro _ hp x hx
    cases l2 with
    | nil =>
      have : x = y := by simpa using hx
      subst this
      simp [List.getLast]
    | cons z l3 =>
      rw [List.getLast_cons (by simp)]
      have hcons := List.pairwise_cons.mp hp
      rcases List.mem_cons.mp hx with hx | hx
      · subst hx
        have := hcons.1 ((z :: l3).getLast (by simp)) (List.getLast_mem (by simp))
        omega
      · exact ih (by simp) hcons.2 x hx

theorem sorted_filter_gt_drop (F : List Message)
    (hp : List.Pairwise (fun x y => x.id < y.id) F) (k : Nat)
    (hne : F.take k ≠ []) :
    F.filter (fun x => ((F.take k).getLast hne).id < x.id) = F.drop k := by
  set mv := (F.take k).getLast hne with hmv
  have hcross : ∀ x ∈ F.take k, ∀ y ∈ F.drop k, x.id < y.id := by
    have h2 := hp
    rw [← List.take_append_drop k F] at h2
    exact (List.pairwise_append.mp h2).2.2
  have htp : List.Pairwise (fun x y : Message => x.id < y.id) (F.take k) :=
    List.Pairwise.sublist (List.take_sublist k F) hp
  have h1 : (F.take k).filter (fun x => mv.id < x.id) = [] := by
    rw [List.filter_eq_nil]
    intro x hx
    have hle := sorted_le_getLast (F.take k) hne htp x hx
    rw [← hmv] at hle
    simp only [decide_eq_true_eq]
    omega
  have h2 : (F.drop k).filter (fun x => mv.id < x.id) = F.drop k := by
    rw [List.filter_eq_self]
    intro y hy
    have := hcross mv (hmv ▸ List.getLast_mem hne) y hy
    simpa using this
  conv_lhs => rw [← List.take_append_drop k F]
  rw [List.filter_append, h1, h2, List.nil_append]

theorem filter_after_marker (chan : List Message) (a : Nat) (m : Message)
    (ham : a < m.id) :
    chan.filter (fun x => m.id < x.id)
      = (chan.filter (fun x => a < x.id)).filter (fun x => m.id < x.id) := by
  rw [List.filter_filter]
  refine List.filter_congr ?_
  intro x _
  by_cases h : m.id < x.id
  · have h2 : a < x.id := by omega
    simp [h, h2]
  · simp [h]

theorem catchUpLoop_some : ∀ (n : Nat) (chan : List Message)
    (c : List (List Nat)) (a : Nat),
    List.Pairwise (fun x y => x.id < y.id) chan →
    (chan.filter (fun m => a < m.id)).length < n →
    ((catchUpLoop chan n c (some a)).2.1 = expectedFinal chan (some a) ∧
     (catchUpLoop chan n c (some a)).2.2.2 = true) := by
  intro n
  induction n with
  | zero => intro chan c a _ h; exact absurd h (by omega)
  | succ k ih =>
    intro chan c a hp hlen
    by_cases hF : chan.filter (fun m => a < m.id) = []
    · have hpage : fetchAfter chan (some a) = [] := by
        show ((chan.filter (fun m => a < m.id)).take 100).reverse = []
        rw [hF]
        rfl
      have hexp : expectedFinal chan (some a) = some a := by
        show (match (chan.filter (fun m => a < m.id)).getLast? with
          | none => some a | some m2 => some m2.id) = some a
        rw [hF]
        rfl
      rw [hexp]
      constructor
      · simp [catchUpLoop, hpage]
      · simp [catchUpLoop, hpage]
    · have htake_ne : (chan.filter (fun m => a < m.id)).take 100 ≠ [] := by
        rw [Ne, List.take_eq_nil_iff]
        push_neg
        exact ⟨by omega, hF⟩
      cases hpg : ((chan.filter (fun m => a < m.id)).take 100).reverse with
      | nil => exact absurd (List.reverse_eq_nil_iff.mp hpg) htake_ne
      | cons m page2 =>
        have hpage : fetchAfter chan (some a) = m :: page2 := by
          show ((chan.filter (fun m => a < m.id)).take 100).reverse = m :: page2
          exact hpg
        have hm? : ((chan.filter (fun m2 => a < m2.id)).take 100).getLast? = some m := by
          rw [← List.head?_reverse, hpg]
          rfl
        have hm_last : ((chan.filter (fun m2 => a < m2.id)).take 100).getLast htake_ne = m := by
          have hgl := List.getLast?_eq_getLast
            ((chan.filter (fun m2 => a < m2.id)).take 100) htake_ne
          rw [hgl] at hm?
          exact Option.some.inj hm?
        have hm_memF : m ∈ chan.filter (fun m2 => a < m2.id) :=
          List.mem_of_mem_take (hm_last ▸ List.getLast_mem htake_ne)
        have ham : a < m.id := by
          have := (List.mem_filter.mp hm_memF).2
          simpa using this
        have hdrop : chan.filter (fun x => m.id < x.id)
            = (chan.filter (fun m2 => a < m2.id)).drop 100 := by
          rw [filter_after_marker chan a m ham]
          rw [← hm_last]
          exact sorted_filter_gt_drop _ (List.Pairwise.filter _ hp) 100 htake_ne
        have hFlen : 0 < (chan.filter (fun m2 => a < m2.id)).length :=
          List.length_pos.mpr hF
        have hlen2 : (chan.filter (fun x => m.id < x.id)).length < k := by
          rw [hdrop, List.length_drop]
          omega
        have hrec := ih chan (processPage c (m :: page2)).1 m.id hp hlen2
        have hexp : expectedFinal chan (some m.id) = expectedFinal chan (some a) := by
          show (match (chan.filter (fun x => m.id < x.id)).getLast? with
            | none => some m.id | some m2 => some m2.id)
            = (match (chan.filter (fun m2 => a < m2.id)).getLast? with
            | none => some a | some m2 => some m2.id)
          rw [hdrop]
          cases hdropnil : (chan.filter (fun m2 => a < m2.id)).drop 100 with
          | nil =>
            have hlen100 : (chan.filter (fun m2 => a < m2.id)).length ≤ 100 := by
              have hld := List.length_drop 100 (chan.filter (fun m2 => a < m2.id))
              rw [hdropnil] at hld
              simp only [List.length_nil] at hld
              omega
            have htakeall : (chan.filter (fun m2 => a < m2.id)).take 100
                = chan.filter (fun m2 => a < m2.id) := List.take_of_length_le hlen100
            have hgl : (chan.filter (fun m2 => a < m2.id)).getLast? = some m := by
              rw [← htakeall]
              exact hm?
            rw [hgl]
            rfl
          | cons d ds =>
            have hFeq : (chan.filter (fun m2 => a < m2.id)).getLast?
                = ((chan.filter (fun m2 => a < m2.id)).drop 100).getLast? := by
              conv_lhs => rw [← List.take_append_drop 100 (chan.filter (fun m2 => a < m2.id))]
              exact List.getLast?_append_of_ne_nil _ (by rw [hdropnil]; simp)
            rw [hFeq, hdropnil]
            rw [List.getLast?_eq_getLast (d :: ds) (by simp)]
        constructor
        · have hstep : (catchUpLoop chan (k + 1) c (some a)).2.1
              = (catchUpLoop chan k (processPage c (m :: page2)).1 (some m.id)).2.1 := by
            simp [catchUpLoop, hpage]
          rw [hstep, hrec.1, hexp]
        · have hstep : (catchUpLoop chan (k + 1) c (some a)).2.2.2
              = (catchUpLoop chan k (processPage c (m :: page2)).1 (some m.id)).2.2.2 := by
            simp [catchUpLoop, hpage]
          rw [hstep, hrec.2]

theorem catchUpLoop_none (n : Nat) (chan : List Message) (c : List (List Nat))
    (hp : List.Pairwise (fun x y => x.id < y.id) chan)
    (hlen : chan.length < n) :
    (catchUpLoop chan n c none).2.1 = expectedFinal chan none ∧
    (catchUpLoop chan n c none).2.2.2 = true := by
  cases n with
  | zero => exact absurd hlen (by omega)
  | succ k =>
    by_cases hchan : chan = []
    · subst hchan
      exact ⟨rfl, rfl⟩
    · cases hrv : chan.reverse with
      | nil => exact absurd (List.reverse_eq_nil_iff.mp hrv) hchan
      | cons y ys =>
        have hpage : fetchAfter chan none = y :: ys.take 99 := by
          show (chan.reverse).take 100 = y :: ys.take 99
          rw [hrv]
          rfl
        have hy : y = chan.getLast hchan := by
          have h1 : chan.reverse.head? = some y := by rw [hrv]; rfl
          rw [List.head?_reverse] at h1
          rw [List.getLast?_eq_getLast chan hchan] at h1
          exact (Option.some.inj h1).symm
        have hfilter : chan.filter (fun x => y.id < x.id) = [] := by
          rw [List.filter_eq_nil]
          intro x hx
          have hle := sorted_le_getLast chan hchan hp x hx
          rw [← hy] at hle
          simp only [decide_eq_true_eq]
          omega
        have hk : 0 < k := by
          have := List.length_pos.mpr hchan
          omega
        have hrec := catchUpLoop_some k chan (processPage c (y :: ys.take 99)).1 y.id hp
          (by rw [hfilter]; simpa using hk)
        have hexp : expectedFinal chan (some y.id) = expectedFinal chan none := by
          show (match (chan.filter (fun x => y.id < x.id)).getLast? with
            | none => some y.id | some m2 => some m2.id)
            = (match chan.getLast? with | none => none | some m2 => some m2.id)
          rw [hfilter, List.getLast?_eq_getLast chan hchan, ← hy]
          rfl
        constructor
        · have hstep : (catchUpLoop chan (k + 1) c none).2.1
              = (catchUpLoop chan k (processPage c (y :: ys.take 99)).1 (some y.id)).2.1 := by
            simp [catchUpLoop, hpage]
          rw [hstep, hrec.1, hexp]
        · have hstep : (catchUpLoop chan (k + 1) c none).2.2.2
              = (catchUpLoop chan k (processPage c (y :: ys.take 99)).1 (some y.id)).2.2.2 := by
            simp [catchUpLoop, hpage]
          rw [hstep, hrec.2]

/-- C3 counterexample: over a channel holding an older message and a newer
message with the same normalized content and no stored mark, the code
processes the page in the platform-returned newest-first order and so
deletes the older message as the duplicate, while processing
oldest-to-newest as the claim states would delete the newer one. -/
theorem c3_counterexample :
    (catchUp [⟨1, 9, [0x41]⟩, ⟨2, 9, [0x61]⟩] 3 ⟨[], none⟩).2.1
      = [Action.deleteMsg 1, Action.save [[0x61]] (some 2)] ∧
    (catchUpOldest [⟨1, 9, [0x41]⟩, ⟨2, 9, [0x61]⟩] 3 ⟨[], none⟩).2.1
      = [Action.deleteMsg 2, Action.save [[0x61]] (some 2)] := by
  decide

/-- C3 as amended: over an ascending channel and with enough fuel, the
catch-up fetches pages strictly after the stored mark (or the most recent
100 when none is stored), processes the fetched messages through
try-insert in the platform-returned order (newest-to-oldest within each
page), deleting exactly the messages found duplicate at their processing
point, stops because an empty page is returned, and leaves the high-water
mark at the id of the newest message seen (or unchanged when nothing is
fetched); finally the state is persisted once. -/
theorem c3_theorem (chan : List Message) (st : MessagesCache) (fuel : Nat)
    (hp : List.Pairwise (fun x y => x.id < y.id) chan)
    (hf : chan.length < fuel) :
    (catchUp chan fuel st).2.2 = true ∧
    (catchUp chan fuel st).1.last_message_id = expectedFinal chan st.last_message_id ∧
    (catchUp chan fuel st).2.1
      = (processPage st.cache (fetchedSeq chan fuel st.last_message_id)).2
        ++ [Action.save (processPage st.cache (fetchedSeq chan fuel st.last_message_id)).1
              (expectedFinal chan st.last_message_id)] ∧
    (∀ a, st.last_message_id = some a →
      ∀ m ∈ fetchedSeq chan fuel st.last_message_id, a < m.id) := by
  have hmark : (catchUpLoop chan fuel st.cache st.last_message_id).2.1
        = expectedFinal chan st.last_message_id ∧
      (catchUpLoop chan fuel st.cache st.last_message_id).2.2.2 = true := by
    cases hlast : st.last_message_id with
    | none => exact catchUpLoop_none fuel chan st.cache hp hf
    | some a =>
      refine catchUpLoop_some fuel chan st.cache a hp ?_
      have := List.length_filter_le (fun m => a < m.id) chan
      omega
  have hrun := catchUpLoop_run fuel chan st.cache st.last_message_id
  refine ⟨hmark.2, hmark.1, ?_, ?_⟩
  · show (catchUpLoop chan fuel st.cache st.last_message_id).2.2.1
        ++ [Action.save (catchUpLoop chan fuel st.cache st.last_message_id).1
             (catchUpLoop chan fuel st.cache st.last_message_id).2.1] = _
    rw [hrun.1, hrun.2, hmark.1]
  · intro a ha m hm
    rw [ha] at hm
    exact fetchedSeq_gt fuel chan a m hm

/-- C3 witness: an ascending two-message channel with a stored mark of 0;
the scan fetches both, deletes the older duplicate, and leaves the mark at
the newest id 2. -/
theorem c3_witness :
    List.Pairwise (fun x y : Message => x.id < y.id) [⟨1, 9, [0x41]⟩, ⟨2, 9, [0x61]⟩] ∧
    ([⟨1, 9, [0x41]⟩, ⟨2, 9, [0x61]⟩] : List Message).length < 3 ∧
    ((catchUp [⟨1, 9, [0x41]⟩, ⟨2, 9, [0x61]⟩] 3 ⟨[], some 0⟩).2.2 = true ∧
    (catchUp [⟨1, 9, [0x41]⟩, ⟨2, 9, [0x61]⟩] 3 ⟨[], some 0⟩).1.last_message_id
      = expectedFinal [⟨1, 9, [0x41]⟩, ⟨2, 9, [0x61]⟩] (MessagesCache.mk [] (some 0)).last_message_id ∧
    (catchUp [⟨1, 9, [0x41]⟩, ⟨2, 9, [0x61]⟩] 3 ⟨[], some 0⟩).2.1
      = (processPage [] (fetchedSeq [⟨1, 9, [0x41]⟩, ⟨2, 9, [0x61]⟩] 3 (some 0))).2
        ++ [Action.save (processPage [] (fetchedSeq [⟨1, 9, [0x41]⟩, ⟨2, 9, [0x61]⟩] 3 (some 0))).1
              (expectedFinal [⟨1, 9, [0x41]⟩, ⟨2, 9, [0x61]⟩] (MessagesCache.mk [] (some 0)).last_message_id)] ∧
    (∀ a, (MessagesCache.mk [] (some 0)).last_message_id = some a →
      ∀ m ∈ fetchedSeq [⟨1, 9, [0x41]⟩, ⟨2, 9, [0x61]⟩] 3 (some 0), a < m.id)) :=
  ⟨by decide, by decide, c3_theorem [⟨1, 9, [0x41]⟩, ⟨2, 9, [0x61]⟩] ⟨[], some 0⟩ 3 (by decide) (by decide)⟩

end SetBot
